import Mathlib

/-!
Verification of the market-grounded listing-draft synthesis pipeline of the
`swipswaps_listing_generator` repository, against its natural-language
specification.

The TypeScript sources are shallowly embedded:

* JavaScript numbers are modelled as exact (unnormalised) fractions
  `JsNum = ⟨num : ℤ, den : ℕ⟩`; every number produced by `parseFloat` in this
  code base is a finite decimal, so the rational model is exact for parsing,
  and the arithmetic the pipeline performs on those values (`* 0.8`, `* 1.2`,
  `(min+max)/2`, comparisons, `toFixed(2)`) is modelled as exact rational
  arithmetic.  `JsNum.toRat` maps a fraction to its value in `ℚ`; all
  value-level statements are phrased through it.
* JavaScript strings are modelled as Lean `String`s; the handful of string
  operations the pipeline uses (`split`, `trim`, `replace` of a literal
  pattern, `join`, `toLowerCase`, regex token scans) are re-implemented as
  structurally recursive functions over `String.data`, following the
  JavaScript semantics (single-character separators, first-occurrence
  replacement, and so on).  JS `\s` also matches some exotic Unicode spaces;
  `Char.isWhitespace` covers the ASCII whitespace actually relevant here.
* `localStorage` plus the JSON round-trip is modelled per key: the listings
  key holds `Option (List ListingDraft)` (`none` = key absent), the api-keys
  key holds an optional parse result.  `JSON.stringify`/`JSON.parse`
  round-trip is modelled as the identity.
* `Math.random()` draws, `Date.now()` and date rendering are passed in as
  explicit parameters (oracles); no settled claim depends on their values.
-/

namespace SLG

set_option maxRecDepth 16384

/-! ## JavaScript numbers as exact fractions -/

/-- A JavaScript number, modelled as the exact fraction `num / den`.
All constructions in this development keep `0 < den`. -/
structure JsNum where
  num : ℤ
  den : ℕ
deriving DecidableEq

/-- The rational value of a `JsNum`. -/
def JsNum.toRat (a : JsNum) : ℚ := (a.num : ℚ) / (a.den : ℚ)

/-- Strict value comparison (`<` on JS numbers), valid for positive
denominators. -/
def JsNum.lt (a b : JsNum) : Prop := a.num * (b.den : ℤ) < b.num * (a.den : ℤ)

instance : DecidablePred fun p : JsNum × JsNum => JsNum.lt p.1 p.2 :=
  fun _ => by unfold JsNum.lt; infer_instance

instance JsNum.decLt (a b : JsNum) : Decidable (JsNum.lt a b) := by
  unfold JsNum.lt; infer_instance

/-- JS `a + b` on exact fractions. -/
def JsNum.add (a b : JsNum) : JsNum :=
  ⟨a.num * (b.den : ℤ) + b.num * (a.den : ℤ), a.den * b.den⟩

/-- JS `a * b` on exact fractions. -/
def JsNum.mul (a b : JsNum) : JsNum := ⟨a.num * b.num, a.den * b.den⟩

/-- JS `a / k` for a positive integer constant `k` (the only division the
pipeline performs). -/
def JsNum.divNat (a : JsNum) (k : ℕ) : JsNum := ⟨a.num, a.den * k⟩

/-- `Math.min(a, b)` (values are never NaN here). -/
def JsNum.minJ (a b : JsNum) : JsNum := if JsNum.lt a b then a else b

/-- `Math.max(a, b)`. -/
def JsNum.maxJ (a b : JsNum) : JsNum := if JsNum.lt a b then b else a

/-- Embed an integer constant. -/
def JsNum.ofInt (n : ℤ) : JsNum := ⟨n, 1⟩

theorem JsNum.toRat_ofInt (n : ℤ) : (JsNum.ofInt n).toRat = (n : ℚ) := by
  simp [JsNum.toRat, JsNum.ofInt]

theorem JsNum.toRat_mul (a b : JsNum) :
    (a.mul b).toRat = a.toRat * b.toRat := by
  simp only [JsNum.toRat, JsNum.mul]
  push_cast
  rw [div_mul_div_comm]

theorem JsNum.toRat_add (a b : JsNum) (ha : 0 < a.den) (hb : 0 < b.den) :
    (a.add b).toRat = a.toRat + b.toRat := by
  have ha' : ((a.den : ℚ)) ≠ 0 := by positivity
  have hb' : ((b.den : ℚ)) ≠ 0 := by positivity
  simp only [JsNum.toRat, JsNum.add]
  push_cast
  rw [div_add_div _ _ ha' hb']
  ring_nf

theorem JsNum.toRat_divNat (a : JsNum) (k : ℕ) :
    (a.divNat k).toRat = a.toRat / (k : ℚ) := by
  simp only [JsNum.toRat, JsNum.divNat]
  push_cast
  rw [div_div]

theorem JsNum.lt_iff_toRat (a b : JsNum) (ha : 0 < a.den) (hb : 0 < b.den) :
    a.lt b ↔ a.toRat < b.toRat := by
  have ha' : (0 : ℚ) < (a.den : ℚ) := by positivity
  have hb' : (0 : ℚ) < (b.den : ℚ) := by positivity
  rw [JsNum.toRat, JsNum.toRat, div_lt_div_iff ha' hb']
  constructor
  · intro h
    exact_mod_cast h
  · intro h
    exact_mod_cast h

theorem JsNum.toRat_minJ (a b : JsNum) (ha : 0 < a.den) (hb : 0 < b.den) :
    (a.minJ b).toRat = min a.toRat b.toRat := by
  rw [JsNum.minJ]
  by_cases h : a.lt b
  · rw [if_pos h]
    exact (min_eq_left (le_of_lt ((JsNum.lt_iff_toRat a b ha hb).mp h))).symm
  · rw [if_neg h]
    exact (min_eq_right (le_of_not_lt fun hc =>
      h ((JsNum.lt_iff_toRat a b ha hb).mpr hc))).symm

theorem JsNum.toRat_maxJ (a b : JsNum) (ha : 0 < a.den) (hb : 0 < b.den) :
    (a.maxJ b).toRat = max a.toRat b.toRat := by
  rw [JsNum.maxJ]
  by_cases h : a.lt b
  · rw [if_pos h]
    exact (max_eq_right (le_of_lt ((JsNum.lt_iff_toRat a b ha hb).mp h))).symm
  · rw [if_neg h]
    exact (max_eq_left (le_of_not_lt fun hc =>
      h ((JsNum.lt_iff_toRat a b ha hb).mpr hc))).symm

theorem JsNum.toRat_eq_zero_iff (a : JsNum) (ha : 0 < a.den) :
    a.toRat = 0 ↔ a.num = 0 := by
  rw [JsNum.toRat, div_eq_zero_iff]
  constructor
  · rintro (h | h)
    · exact_mod_cast h
    · exfalso
      have : (a.den : ℚ) ≠ 0 := by positivity
      exact this h
  · intro h
    left
    exact_mod_cast h

/-! ## JavaScript string helpers (structurally recursive, over `String.data`) -/

/-- JS `str.split(sep)` for a single-character separator (`'\n'` in the
source); `"".split(sep)` is `[""]`, and a trailing separator yields a
trailing empty piece, as in JavaScript. -/
def splitOnChar (sep : Char) : List Char → List (List Char)
  | [] => [[]]
  | c :: rest =>
    if c = sep then [] :: splitOnChar sep rest
    else
      match splitOnChar sep rest with
      | [] => [[c]]
      | w :: ws => (c :: w) :: ws

/-- JS `str.trim()` (ASCII whitespace). -/
def jsTrim (cs : List Char) : List Char :=
  ((cs.dropWhile Char.isWhitespace).reverse.dropWhile Char.isWhitespace).reverse

/-- JS `str.replace(pat, repl)` with a *string* pattern: replaces only the
first occurrence, leaves the string unchanged when the pattern is absent.
Every pattern used in the source (`"Item:"`, `"{ITEM}"`) is non-empty. -/
def replaceFirstL (pat repl : List Char) : List Char → List Char
  | [] => []
  | c :: rest =>
    if pat.isPrefixOf (c :: rest) then repl ++ (c :: rest).drop pat.length
    else c :: replaceFirstL pat repl rest

/-- String-level wrapper for `replaceFirstL`. -/
def String.replaceFirst (s pat repl : String) : String :=
  ⟨replaceFirstL pat.data repl.data s.data⟩

/-- JS `Array.prototype.join(sep)`. -/
def joinSep (sep : String) : List String → String
  | [] => ""
  | [x] => x
  | x :: y :: xs => x ++ sep ++ joinSep sep (y :: xs)

/-- JS `str.toLowerCase()` (ASCII letters; the stop-word and keyword logic of
the source only inspects ASCII). -/
def lowerS (s : String) : String := ⟨s.data.map Char.toLower⟩

/-- JS `str.split(/\s+/)` followed by discarding empty pieces.  In the source
every produced empty piece is immediately discarded by a `length > 2`
filter, so fusing the discard into the split is sound. -/
def splitWsGo (cur : Option (List Char)) : List Char → List (List Char)
  | [] =>
    match cur with
    | none => []
    | some t => [t.reverse]
  | c :: rest =>
    if c.isWhitespace then
      match cur with
      | none => splitWsGo none rest
      | some t => t.reverse :: splitWsGo none rest
    else
      match cur with
      | none => splitWsGo (some [c]) rest
      | some t => splitWsGo (some (c :: t)) rest

/-- Entry point of the whitespace split. -/
def splitWsL (cs : List Char) : List (List Char) := splitWsGo none cs

/-! ## `parseFloat` and the numeric-token scan of `parsePriceRange` -/

/-- Decimal digits to a natural number. -/
def digitsToNat (ds : List Char) : ℕ :=
  ds.foldl (fun n c => 10 * n + (c.toNat - 48)) 0

/-- JS `parseFloat` restricted to strings of digits and dots (every call
site first strips all other characters with `replace(/[^0-9.]/g, '')`):
parses the longest prefix `digits [ '.' digits ]`; `none` models `NaN`. -/
def parseFloatQ (cs : List Char) : Option JsNum :=
  match cs.drop (cs.takeWhile Char.isDigit).length with
  | '.' :: r2 =>
    if (cs.takeWhile Char.isDigit).isEmpty && (r2.takeWhile Char.isDigit).isEmpty then
      none
    else
      some ⟨(digitsToNat (cs.takeWhile Char.isDigit) : ℤ) *
          (10 : ℤ) ^ (r2.takeWhile Char.isDigit).length +
          (digitsToNat (r2.takeWhile Char.isDigit) : ℤ),
        10 ^ (r2.takeWhile Char.isDigit).length⟩
  | _ =>
    if (cs.takeWhile Char.isDigit).isEmpty then none
    else some ⟨(digitsToNat (cs.takeWhile Char.isDigit) : ℤ), 1⟩

/-- `parseFloat(s.replace(/[^0-9.]/g, ''))` with `NaN ↦ none`. -/
def jsParseNum (s : String) : Option JsNum :=
  parseFloatQ (s.data.filter fun c => c.isDigit || c = '.')

/-- The global matches of `/\$?\d[\d,\.]*/g`: each match starts at a digit
(an immediately preceding `$` is part of the regex match but is removed
again by the `replace(/[^0-9.]/g,'')` of every consumer, so it is dropped
here) and greedily extends over digits, commas and dots; scanning resumes
after each match, left to right. -/
def scanTokensGo (cur : Option (List Char)) : List Char → List (List Char)
  | [] =>
    match cur with
    | none => []
    | some t => [t.reverse]
  | c :: rest =>
    match cur with
    | none =>
      if c.isDigit then scanTokensGo (some [c]) rest else scanTokensGo none rest
    | some t =>
      if c.isDigit || c = ',' || c = '.' then scanTokensGo (some (c :: t)) rest
      else t.reverse :: scanTokensGo none rest

/-- Entry point of the token scan (a char ending a token is never a digit,
so the scan may consume it while closing the token). -/
def scanTokens (cs : List Char) : List (List Char) := scanTokensGo none cs

/-- The `numbers` list of `parsePriceRange`:
`priceRangeString.match(/\$?\d[\d,\.]*/g)?.map(n => parseFloat(n.replace(/[^0-9.]/g,''))).filter(n => !isNaN(n))`. -/
def jsNumbers (s : String) : List JsNum :=
  (scanTokens s.data).filterMap fun t =>
    parseFloatQ (t.filter fun c => c.isDigit || c = '.')

/-- The `{min, max, avg}` triple returned by `parsePriceRange`. -/
structure PriceTriple where
  min : JsNum
  max : JsNum
  avg : JsNum
deriving DecidableEq

/-- `parsePriceRange` (src/unnamed/part_002, lines 10–26).  The literals
`0.8` and `1.2` are modelled as the exact fractions `8/10` and `12/10`. -/
def parsePriceRange (s : String) : PriceTriple :=
  match jsNumbers s with
  | [] => ⟨JsNum.ofInt 30, JsNum.ofInt 150, JsNum.ofInt 90⟩
  | [p] => ⟨p.mul ⟨8, 10⟩, p.mul ⟨12, 10⟩, p⟩
  | p :: q :: rest =>
    let mn := (q :: rest).foldl JsNum.minJ p
    let mx := (q :: rest).foldl JsNum.maxJ p
    ⟨mn, mx, (mn.add mx).divNat 2⟩

/-- The Price Range Normalizer contract, written from the specification's
words (§4.2), at the level of rational values: 0 numbers → the default
triple; 1 number `p` → `{0.8p, 1.2p, p}`; ≥ 2 numbers → minimum, maximum,
and their mean. -/
def specPriceTriple (s : String) : ℚ × ℚ × ℚ :=
  match (jsNumbers s).map JsNum.toRat with
  | [] => (30, 150, 90)
  | [p] => (p * (8 / 10), p * (12 / 10), p)
  | p :: q :: rest =>
    let mn := (q :: rest).foldl min p
    let mx := (q :: rest).foldl max p
    (mn, mx, (mn + mx) / 2)

/-- Every number produced by `parseFloatQ` has a positive denominator. -/
theorem parseFloatQ_den_pos (cs : List Char) (a : JsNum)
    (h : parseFloatQ cs = some a) : 0 < a.den := by
  unfold parseFloatQ at h
  split at h
  · split at h
    · exact absurd h (by simp)
    · cases h
      positivity
  · split at h
    · exact absurd h (by simp)
    · cases h
      simp

theorem jsNumbers_den_pos (s : String) : ∀ a ∈ jsNumbers s, 0 < a.den := by
  intro a ha
  rcases List.mem_filterMap.mp ha with ⟨t, _, hparse⟩
  exact parseFloatQ_den_pos _ _ hparse

theorem foldl_minJ_toRat (p : JsNum) (l : List JsNum)
    (hp : 0 < p.den) (hl : ∀ a ∈ l, 0 < a.den) :
    (l.foldl JsNum.minJ p).toRat = l.foldl (fun m a => min m a.toRat) p.toRat := by
  induction l generalizing p with
  | nil => rfl
  | cons a t ih =>
    have hden : 0 < (p.minJ a).den := by
      rw [JsNum.minJ]
      split
      · exact hp
      · exact hl a (by simp)
    have := ih (p.minJ a) hden (fun b hb => hl b (by simp [hb]))
    simp only [List.foldl_cons, this,
      JsNum.toRat_minJ p a hp (hl a (by simp))]

theorem foldl_maxJ_toRat (p : JsNum) (l : List JsNum)
    (hp : 0 < p.den) (hl : ∀ a ∈ l, 0 < a.den) :
    (l.foldl JsNum.maxJ p).toRat = l.foldl (fun m a => max m a.toRat) p.toRat := by
  induction l generalizing p with
  | nil => rfl
  | cons a t ih =>
    have hden : 0 < (p.maxJ a).den := by
      rw [JsNum.maxJ]
      split
      · exact hl a (by simp)
      · exact hp
    have := ih (p.maxJ a) hden (fun b hb => hl b (by simp [hb]))
    simp only [List.foldl_cons, this,
      JsNum.toRat_maxJ p a hp (hl a (by simp))]

theorem foldl_minJ_den_pos (p : JsNum) (l : List JsNum)
    (hp : 0 < p.den) (hl : ∀ a ∈ l, 0 < a.den) :
    0 < (l.foldl JsNum.minJ p).den := by
  induction l generalizing p with
  | nil => exact hp
  | cons a t ih =>
    have hden : 0 < (p.minJ a).den := by
      rw [JsNum.minJ]
      split
      · exact hp
      · exact hl a (by simp)
    exact ih (p.minJ a) hden (fun b hb => hl b (by simp [hb]))

theorem foldl_maxJ_den_pos (p : JsNum) (l : List JsNum)
    (hp : 0 < p.den) (hl : ∀ a ∈ l, 0 < a.den) :
    0 < (l.foldl JsNum.maxJ p).den := by
  induction l generalizing p with
  | nil => exact hp
  | cons a t ih =>
    have hden : 0 < (p.maxJ a).den := by
      rw [JsNum.maxJ]
      split
      · exact hl a (by simp)
      · exact hp
    exact ih (p.maxJ a) hden (fun b hb => hl b (by simp [hb]))

/-- C2.  The Price Range Normalizer is total (it is a Lean function) and
returns, at the level of values: the default `{30, 150, 90}` for zero
numeric tokens, `{0.8p, 1.2p, p}` for exactly one token `p`, and
`{min, max, (min+max)/2}` over all tokens for two or more. -/
theorem c2_price_range_normalizer (s : String) :
    ((parsePriceRange s).min.toRat, (parsePriceRange s).max.toRat,
      (parsePriceRange s).avg.toRat) = specPriceTriple s := by
  unfold parsePriceRange specPriceTriple
  rcases hn : jsNumbers s with _ | ⟨p, _ | ⟨q, rest⟩⟩
  · simp [JsNum.toRat_ofInt]
  · have hp : 0 < p.den := jsNumbers_den_pos s p (by rw [hn]; simp)
    simp only [List.map_cons, List.map_nil, JsNum.toRat_mul]
    have h8 : (JsNum.toRat ⟨8, 10⟩) = 8 / 10 := by
      norm_num [JsNum.toRat]
    have h12 : (JsNum.toRat ⟨12, 10⟩) = 12 / 10 := by
      norm_num [JsNum.toRat]
    rw [h8, h12]
  · have hmem : ∀ a ∈ jsNumbers s, 0 < a.den := jsNumbers_den_pos s
    rw [hn] at hmem
    have hp : 0 < p.den := hmem p (by simp)
    have hq : 0 < q.den := hmem q (by simp)
    have htail : ∀ a ∈ q :: rest, 0 < a.den := fun a ha => hmem a (by simp [ha])
    have hmnden : 0 < ((q :: rest).foldl JsNum.minJ p).den :=
      foldl_minJ_den_pos p _ hp htail
    have hmxden : 0 < ((q :: rest).foldl JsNum.maxJ p).den :=
      foldl_maxJ_den_pos p _ hp htail
    simp only [List.map_cons]
    rw [JsNum.toRat_divNat, JsNum.toRat_add _ _ hmnden hmxden,
      foldl_minJ_toRat p _ hp htail, foldl_maxJ_toRat p _ hp htail]
    simp only [List.foldl_cons, List.foldl_map]
    norm_num

/-! ## Data model (src/types.ts) -/

/-- `eBayItem` of src/types.ts. -/
structure EBayItem where
  itemId : String
  title : String
  price : String
  shippingCost : Option String
  imageUrl : String
  listingUrl : String
  condition : String
  soldDate : String
deriving DecidableEq

/-- `GroundingSource` of src/types.ts (the `type` field is the constant
string `'googleSearch'` and is omitted). -/
structure GroundingSource where
  uri : String
  title : Option String
deriving DecidableEq

/-- `ListingDraft` of src/types.ts (second revision: with `imageUrl`). -/
structure ListingDraft where
  itemDescription : String
  suggestedTitle : String
  suggestedCategory : String
  suggestedPriceRange : String
  suggestedCondition : String
  exampleSoldListings : List EBayItem
  generatedDate : String
  imageUrl : Option String
  groundingSources : Option (List GroundingSource)
deriving DecidableEq

/-- The market data consumed by the fallback synthesis path
(`geminiService.fetchEbayGroundingData` result shape). -/
structure MarketData where
  priceRange : String
  conditionSummary : String
  keywords : List String
  marketTitlePatterns : List String
  groundingSources : List GroundingSource
deriving DecidableEq

/-! ## Draft History Store (src/services/databaseService.ts, lines 32–58)

`localStorage` under the listings key is modelled as
`Option (List ListingDraft)` (`none` = key absent); the
`JSON.stringify`/`JSON.parse` round-trip is modelled as the identity and the
storage medium is assumed available (the `try`/`catch` wrappers in the
source only guard against a throwing medium). -/

/-- The content of `localStorage['generated_listings']`. -/
def ListingStore : Type := Option (List ListingDraft)

/-- `loadListings` (lines 42–50). -/
def loadListings (s : ListingStore) : List ListingDraft := s.getD []

/-- `saveListing` (lines 32–40): load, `unshift` (prepend), store back. -/
def saveListing (d : ListingDraft) (s : ListingStore) : ListingStore :=
  some (d :: loadListings s)

/-- `clearListings` (lines 52–58): `localStorage.removeItem`. -/
def clearListings (_ : ListingStore) : ListingStore := (none : Option (List ListingDraft))

/-- C8.  From any initial store state, `save d1; save d2; loadAll()` yields
`d2` first, `d1` second, with all previously stored drafts preserved
unchanged behind them, and `clear(); loadAll()` yields `[]`. -/
theorem c8_history_store (s : ListingStore) (d1 d2 : ListingDraft) :
    loadListings (saveListing d2 (saveListing d1 s)) = d2 :: d1 :: loadListings s
    ∧ loadListings (clearListings s) = [] :=
  ⟨rfl, rfl⟩

/-! ## Credential store (src/services/databaseService.ts, lines 15–30) -/

/-- A stored / returned api-keys object: each field is `none` when the JSON
object lacks the key (`undefined`), `some v` when present.  Only the three
fields the migration logic of `loadApiKeys` inspects are modelled; any other
properties of the blob pass through `loadApiKeys` unchanged. -/
structure StoredKeys where
  chatGptApiKey : Option String
  ebayAppId : Option String
  ebayApiKey : Option String
deriving DecidableEq

/-- `loadApiKeys`: the argument models `localStorage['api_keys']` —
`none` = no blob stored, `some none` = a blob whose `JSON.parse` throws
(caught, all-defaults returned), `some (some k)` = a parsed blob `k`. -/
def loadApiKeys : Option (Option StoredKeys) → StoredKeys
  | none => ⟨some "", some "", none⟩
  | some none => ⟨some "", some "", none⟩
  | some (some k) =>
    if k.ebayApiKey ≠ none ∧ k.ebayAppId = none then
      { k with ebayAppId := k.ebayApiKey, ebayApiKey := none }
    else k

/-- C9 counterexample.  A stored blob containing only the legacy
`ebayApiKey` field is migrated, but the absent `chatGptApiKey` field stays
absent (`undefined`) in the returned object — it is *not* mapped to an
explicit empty-string default as the claim states. -/
theorem c9_counterexample :
    (loadApiKeys (some (some ⟨none, none, some "LEGACY"⟩))).chatGptApiKey = none
    ∧ (loadApiKeys (some (some ⟨none, none, some "LEGACY"⟩))).chatGptApiKey ≠ some "" := by
  constructor
  · rfl
  · decide

/-- C9 (amended).  `loadApiKeys` is total (never throws); a parsed blob with
the legacy `ebayApiKey` field and no `ebayAppId` is migrated — the current
field receives the legacy value, the legacy field is absent from the result,
the other fields pass through unchanged (absent fields *stay absent*); a
missing blob or a parse failure yields the explicit defaults
`{chatGptApiKey: "", ebayAppId: ""}`. -/
theorem c9_credential_load (k : StoredKeys)
    (hleg : k.ebayApiKey ≠ none) (hcur : k.ebayAppId = none) :
    (loadApiKeys (some (some k))).ebayAppId = k.ebayApiKey
    ∧ (loadApiKeys (some (some k))).ebayApiKey = none
    ∧ (loadApiKeys (some (some k))).chatGptApiKey = k.chatGptApiKey
    ∧ loadApiKeys none = ⟨some "", some "", none⟩
    ∧ loadApiKeys (some none) = ⟨some "", some "", none⟩ := by
  simp only [loadApiKeys]
  rw [if_pos ⟨hleg, hcur⟩]
  simp

/-- Witness for `c9_credential_load` at the blob `{ebayApiKey: "LEGACY"}`. -/
theorem c9_credential_load_witness :
    (loadApiKeys (some (some ⟨none, none, some "LEGACY"⟩))).ebayAppId = some "LEGACY"
    ∧ (loadApiKeys (some (some ⟨none, none, some "LEGACY"⟩))).ebayApiKey = none :=
  ⟨(c9_credential_load ⟨none, none, some "LEGACY"⟩ (by decide) rfl).1,
   (c9_credential_load ⟨none, none, some "LEGACY"⟩ (by decide) rfl).2.1⟩

/-! ## `toFixed(2)` and floor helpers -/

/-- `Math.floor` of an exact fraction with positive denominator
(`Int` `/` is Euclidean division, which is floor division for a positive
divisor). -/
def jsFloor (a : JsNum) : ℤ := a.num / (a.den : ℤ)

/-- The number of cents of a non-negative amount, rounded half-up:
`⌊value * 100 + 1/2⌋`, computed on the exact fraction.  This models
`toFixed(2)` for the non-negative amounts this pipeline formats. -/
def cent (a : JsNum) : ℤ := (200 * a.num + (a.den : ℤ)) / (2 * (a.den : ℤ))

/-- Render a (non-negative) cent count as `"<units>.<2-digit cents>"`. -/
def centString (c : ℤ) : String :=
  Nat.repr (c.toNat / 100) ++ "." ++
    (if c.toNat % 100 < 10 then "0" ++ Nat.repr (c.toNat % 100)
     else Nat.repr (c.toNat % 100))

/-- `x.toFixed(2)` for the non-negative amounts of this pipeline. -/
def toFixed2 (a : JsNum) : String := centString (cent a)

theorem cent_eq_floor (a : JsNum) (h : 0 < a.den) :
    cent a = ⌊a.toRat * 100 + 1 / 2⌋ := by
  have hd : ((a.den : ℚ)) ≠ 0 := by positivity
  have hx : a.toRat * 100 + 1 / 2 =
      ((200 * a.num + (a.den : ℤ) : ℤ) : ℚ) / ((2 * a.den : ℕ) : ℚ) := by
    rw [JsNum.toRat]
    push_cast
    field_simp
    ring
  rw [cent, hx, Rat.floor_intCast_div_natCast]
  push_cast
  ring_nf

/-- `toFixed2` depends only on the value of its argument. -/
theorem toFixed2_congr (a b : JsNum) (ha : 0 < a.den) (hb : 0 < b.den)
    (h : a.toRat = b.toRat) : toFixed2 a = toFixed2 b := by
  unfold toFixed2
  rw [cent_eq_floor a ha, cent_eq_floor b hb, h]

/-! ## `fetchSoldListings` (src/unnamed/part_002, lines 42–117)

The mock comparable-listings provider.  `Math.random()` draws are passed in
as an oracle `rand : ℕ → JsNum` indexed by call order (draw 0 picks the
condition before the loop; iteration `i` then draws title pattern, price,
shipping, sold-date offset, in the order the object literal evaluates its
fields); `Date.now()` is `nowMs` and the `toISOString`-based date rendering
is the oracle `isoDate`.  No settled claim depends on these values. -/

/-- `Math.floor(r * n)` used as an index; reduced `% n` so that the model is
total (the real draws lie in `[0, 1)`, where `% n` is the identity). -/
def randIndex (r : JsNum) (n : ℕ) : ℕ := (jsFloor (r.mul (JsNum.ofInt n))).toNat % n

/-- String-level `trim`. -/
def jsTrimS (s : String) : String := ⟨jsTrim s.data⟩

/-- The generic mock item returned when the eBay App ID is absent/blank. -/
def genericMockListing (query : String) : EBayItem :=
  { itemId := "gen_9999"
    title := "Generic item similar to \"" ++ query ++ "\""
    price := "US $49.99"
    shippingCost := some "US $7.99"
    imageUrl := "https://via.placeholder.com/100x100?text=Generic+Item"
    listingUrl := "https://www.ebay.com/"
    condition := "Used"
    soldDate := "2024-01-01" }

/-- JS `a - b`. -/
def JsNum.sub (a b : JsNum) : JsNum := a.add ⟨-b.num, b.den⟩

/-- `generateRandomPrice` (part_002, lines 71–77). -/
def generateRandomPrice (parsedMin parsedMax basePrice : JsNum) (r : JsNum) : String :=
  let deviation := basePrice.mul ⟨15, 100⟩
  let price0 := basePrice.add ((r.mul (deviation.mul (JsNum.ofInt 2))).sub deviation)
  let price1 := (parsedMin.mul ⟨9, 10⟩).maxJ price0
  let price2 := (parsedMax.mul ⟨11, 10⟩).minJ price1
  "US $" ++ toFixed2 price2

/-- `str.replace(/\s{2,}/g, ' ')`: every run of two or more whitespace
characters becomes a single space; a lone whitespace character stays. -/
def collapseWs : List Char → List Char
  | [] => []
  | [c] => [c]
  | c :: d :: rest =>
    if c.isWhitespace ∧ d.isWhitespace then collapseWs (' ' :: rest)
    else c :: collapseWs (d :: rest)
termination_by cs => cs.length
decreasing_by
  · simp
  · simp

/-- `generateRandomTitle` (part_002, lines 79–97).  JS string `.length` and
`.substring` count UTF-16 units; for the ASCII strings involved this
coincides with the code-point count used here. -/
def generateRandomTitle (marketKeywords marketTitlePatterns : List String)
    (baseQuery : String) (r : JsNum) : String :=
  let keywordsToUse :=
    (marketKeywords ++
      ((splitOnChar ' ' baseQuery.data).map fun w => (⟨w⟩ : String)).filter
        fun w => 3 < w.length).take 3
  let patternsToUse :=
    if marketTitlePatterns.length > 0 then marketTitlePatterns
    else ["Vintage \x7bITEM\x7d Rare!", "\x7bITEM\x7d Used Good Condition",
      "Tested \x7bITEM\x7d Works Great", "New \x7bITEM\x7d In Box"]
  let title0 :=
    if keywordsToUse.length > 0 then joinSep " " keywordsToUse ++ " " ++ baseQuery
    else baseQuery
  let pattern := patternsToUse.getD (randIndex r patternsToUse.length) ""
  let title1 := String.replaceFirst pattern "\x7bITEM\x7d" title0
  let title2 : String := ⟨jsTrim (collapseWs title1.data)⟩
  if title2.length > 80 then (⟨title2.data.take 77⟩ : String) ++ "..." else title2

/-- The condition pool of part_002, line 99. -/
def conditionsPool : List String :=
  ["Used", "Used - Good", "Used - Excellent", "New", "New - Open Box"]

/-- One generated mock listing (loop body, part_002 lines 103–114). -/
def mockListing (query : String) (marketKeywords marketTitlePatterns : List String)
    (parsed : PriceTriple) (randomCondition : String)
    (rand : ℕ → JsNum) (nowMs : ℕ) (isoDate : ℤ → String) (i : ℕ) : EBayItem :=
  { itemId := "mock_" ++ Nat.repr nowMs ++ "_" ++ Nat.repr i
    title := generateRandomTitle marketKeywords marketTitlePatterns query (rand (1 + 4 * i))
    price := generateRandomPrice parsed.min parsed.max parsed.avg (rand (2 + 4 * i))
    shippingCost := some ("US $" ++ toFixed2 ((JsNum.ofInt 5).add ((rand (3 + 4 * i)).mul (JsNum.ofInt 10))))
    imageUrl := "https://via.placeholder.com/100x100?text=Sold+" ++
      (⟨(splitOnChar ' ' query.data).headD []⟩ : String) ++ "_" ++ Nat.repr (i + 1)
    listingUrl := "https://www.ebay.com/itm/mock_" ++ Nat.repr nowMs ++ "_" ++ Nat.repr i
    condition := randomCondition
    soldDate := isoDate ((nowMs : ℤ) - (jsFloor ((rand (4 + 4 * i)).mul (JsNum.ofInt 2592000000)))) }

/-- `fetchSoldListings` (part_002, lines 42–117).  The guard models
`ebayAppId && ebayAppId.trim() !== ''` (empty string is falsy). -/
def fetchSoldListings (query ebayAppId marketPriceRange : String)
    (marketKeywords marketTitlePatterns : List String)
    (rand : ℕ → JsNum) (nowMs : ℕ) (isoDate : ℤ → String) : List EBayItem :=
  if ebayAppId = "" ∨ jsTrimS ebayAppId = "" then [genericMockListing query]
  else
    let parsed := parsePriceRange marketPriceRange
    let randomCondition := conditionsPool.getD (randIndex (rand 0) conditionsPool.length) ""
    (List.range 3).map
      (mockListing query marketKeywords marketTitlePatterns parsed randomCondition rand nowMs isoDate)

/-- C10.  `fetchSoldListings` never returns an empty sequence: exactly one
(the generic mock item) when the eBay App ID is blank, and exactly three
generated mock items otherwise. -/
theorem c10_fetch_sold_listings (query ebayAppId marketPriceRange : String)
    (marketKeywords marketTitlePatterns : List String)
    (rand : ℕ → JsNum) (nowMs : ℕ) (isoDate : ℤ → String) :
    fetchSoldListings query ebayAppId marketPriceRange marketKeywords
        marketTitlePatterns rand nowMs isoDate ≠ []
    ∧ (fetchSoldListings query ebayAppId marketPriceRange marketKeywords
        marketTitlePatterns rand nowMs isoDate).length =
      (if jsTrimS ebayAppId = "" then 1 else 3)
    ∧ (jsTrimS ebayAppId = "" →
        fetchSoldListings query ebayAppId marketPriceRange marketKeywords
          marketTitlePatterns rand nowMs isoDate = [genericMockListing query]) := by
  unfold fetchSoldListings
  by_cases h : jsTrimS ebayAppId = ""
  · rw [if_pos (Or.inr h), if_pos h]
    exact ⟨by simp, rfl, fun _ => rfl⟩
  · have hcond : ¬ (ebayAppId = "" ∨ jsTrimS ebayAppId = "") := by
      rintro (h1 | h2)
      · exact h (by rw [h1]; rfl)
      · exact h h2
    rw [if_neg hcond, if_neg h]
    refine ⟨by simp, by simp, fun h2 => absurd h2 h⟩

/-- Witness for `c10_fetch_sold_listings` at a blank App ID. -/
theorem c10_fetch_sold_listings_witness :
    fetchSoldListings "vintage camera" "" "$50 - $100" [] []
      (fun _ => JsNum.ofInt 0) 0 (fun _ => "2024-01-01")
      = [genericMockListing "vintage camera"] :=
  (c10_fetch_sold_listings "vintage camera" "" "$50 - $100" [] []
    (fun _ => JsNum.ofInt 0) 0 (fun _ => "2024-01-01")).2.2 rfl

/-! ## Fallback Draft Synthesizer
(src/components/ListingGenerator.tsx, second revision, lines 288–308) -/

/-- `itemDescription.split('\n')[0].replace('Item:', '').trim()`. -/
def primaryItemDescription (itemDescription : String) : String :=
  jsTrimS (String.replaceFirst (⟨(splitOnChar '\n' itemDescription.data).headD []⟩)
    "Item:" "")

/-- `itemDescription.split('\n').slice(1).join('\n').trim()`. -/
def additionalDetails (itemDescription : String) : String :=
  jsTrimS (joinSep "\n"
    (((splitOnChar '\n' itemDescription.data).drop 1).map fun w => (⟨w⟩ : String)))

/-- The fallback `defaultTitle` (lines 292–294); `r` is the `Math.random()`
draw selecting the pattern. -/
def fallbackTitle (itemDescription : String) (md : MarketData) (r : JsNum) : String :=
  if md.marketTitlePatterns.length > 0 then
    String.replaceFirst
      (md.marketTitlePatterns.getD (randIndex r md.marketTitlePatterns.length) "")
      "\x7bITEM\x7d" (primaryItemDescription itemDescription)
  else
    primaryItemDescription itemDescription ++ " - " ++ md.conditionSummary ++
      " - Rare Find!"

/-- The fallback `defaultDescription` template (line 296), flattened into an
explicit concatenation (grouped to the right; `++` is associative). -/
def fallbackDescription (itemDescription : String) (md : MarketData) : String :=
  "This is a highly sought-after " ++
    (primaryItemDescription itemDescription ++
      (". " ++
        ((if additionalDetails itemDescription ≠ "" then
            "It features: " ++ additionalDetails itemDescription ++ "."
          else "") ++
          (" Based on recent market analysis, similar items have sold for " ++
            (md.priceRange ++
              (" in " ++
                (md.conditionSummary ++
                  (" condition. This particular piece is perfect for collectors or enthusiasts. Key selling points include: " ++
                    (joinSep ", " md.keywords ++ ". A truly unique opportunity!")))))))))

/-- The draft built by the fallback synthesis path (lines 298–308). -/
def fallbackDraft (itemDescription itemCategory : String) (md : MarketData)
    (listings : List EBayItem) (imageUrl : String) (now : String) (r : JsNum) :
    ListingDraft :=
  { itemDescription := fallbackDescription itemDescription md
    suggestedTitle := fallbackTitle itemDescription md r
    suggestedCategory := itemCategory
    suggestedPriceRange := md.priceRange
    suggestedCondition := md.conditionSummary
    exampleSoldListings := listings
    generatedDate := now
    imageUrl := some imageUrl
    groundingSources := some md.groundingSources }

/-! ## Substring containment -/

/-- `needle` occurs verbatim inside `hay`. -/
def Substr (needle hay : String) : Prop := needle.data <:+: hay.data

instance (n h : String) : Decidable (Substr n h) := by
  unfold Substr
  infer_instance

theorem Substr.selfS (s : String) : Substr s s := List.infix_refl s.data

theorem substr_append_left (x a y : String) (h : Substr x y) : Substr x (a ++ y) := by
  unfold Substr at *
  rw [String.data_append]
  exact h.trans (List.suffix_append a.data y.data).isInfix

theorem substr_append_right (x y b : String) (h : Substr x y) : Substr x (y ++ b) := by
  unfold Substr at *
  rw [String.data_append]
  exact h.trans (List.prefix_append y.data b.data).isInfix

theorem substr_joinSep (sep : String) (k : String) :
    ∀ ks : List String, k ∈ ks → Substr k (joinSep sep ks) := by
  intro ks
  induction ks with
  | nil => intro h; cases h
  | cons x xs ih =>
    intro hmem
    match xs, hmem with
    | [], hmem =>
      have : k = x := by simpa using hmem
      subst this
      exact Substr.selfS k
    | y :: ys, hmem =>
      rcases List.mem_cons.mp hmem with h | h
      · subst h
        show Substr k (k ++ sep ++ joinSep sep (y :: ys))
        exact substr_append_right _ _ _ (substr_append_right _ _ _ (Substr.selfS k))
      · show Substr k (x ++ sep ++ joinSep sep (y :: ys))
        exact substr_append_left _ _ _ (ih h)

/-- C5 (amended).  The fallback `itemDescription` contains, verbatim as
substrings: the *primary* item description (first line of the identification
text with the first `"Item:"` removed and trimmed — not the full
identification text), the condition summary, and every keyword. -/
theorem c5_fallback_description_contains (itemDescription : String) (md : MarketData) :
    Substr (primaryItemDescription itemDescription) (fallbackDescription itemDescription md)
    ∧ Substr md.conditionSummary (fallbackDescription itemDescription md)
    ∧ ∀ k ∈ md.keywords, Substr k (fallbackDescription itemDescription md) := by
  unfold fallbackDescription
  refine ⟨?_, ?_, ?_⟩
  · exact substr_append_left _ _ _ (substr_append_right _ _ _ (Substr.selfS _))
  · exact substr_append_left _ _ _ (substr_append_left _ _ _ (substr_append_left _ _ _
      (substr_append_left _ _ _ (substr_append_left _ _ _ (substr_append_left _ _ _
      (substr_append_left _ _ _ (substr_append_right _ _ _ (Substr.selfS _))))))))
  · intro k hk
    exact substr_append_left _ _ _ (substr_append_left _ _ _ (substr_append_left _ _ _
      (substr_append_left _ _ _ (substr_append_left _ _ _ (substr_append_left _ _ _
      (substr_append_left _ _ _ (substr_append_left _ _ _ (substr_append_left _ _ _
      (substr_append_right _ _ _ (substr_joinSep ", " k md.keywords hk))))))))))

/-- Witness for `c5_fallback_description_contains`: the specification's own
example — identification `"vintage camera"`, keywords `["rare", "mint"]` —
both keywords occur in the generated description. -/
theorem c5_fallback_description_contains_witness :
    Substr "rare" (fallbackDescription "vintage camera"
      ⟨"$50 - $100", "Used", ["rare", "mint"], [], []⟩)
    ∧ Substr "mint" (fallbackDescription "vintage camera"
      ⟨"$50 - $100", "Used", ["rare", "mint"], [], []⟩) :=
  ⟨(c5_fallback_description_contains "vintage camera"
      ⟨"$50 - $100", "Used", ["rare", "mint"], [], []⟩).2.2 "rare" (by decide),
   (c5_fallback_description_contains "vintage camera"
      ⟨"$50 - $100", "Used", ["rare", "mint"], [], []⟩).2.2 "mint" (by decide)⟩

/-- C5 counterexample.  For the identification text `"Item: vintage camera"`
the generated description does *not* contain the identification text
verbatim (the synthesizer strips the `"Item:"` label before embedding it),
refuting the claim's containment of "the identification text". -/
theorem c5_counterexample :
    ¬ Substr "Item: vintage camera" (fallbackDescription "Item: vintage camera"
      ⟨"$50 - $100", "Used", ["rare", "mint"], [], []⟩) := by
  decide

/-- C6 (amended).  The fallback path sets `suggestedCondition` to
`MarketData.conditionSummary` verbatim — it performs no comma/dash clause
splitting and has no `"Used"` default. -/
theorem c6_suggested_condition (itemDescription itemCategory : String)
    (md : MarketData) (listings : List EBayItem) (imageUrl now : String) (r : JsNum) :
    (fallbackDraft itemDescription itemCategory md listings imageUrl now r).suggestedCondition
      = md.conditionSummary := rfl

/-- The claim's rule for `suggestedCondition`, modelled from the
specification's words (§4.4): the first comma/dash-delimited clause of the
condition summary, and `"Used"` when no condition summary is present. -/
def claimedSuggestedCondition (conditionSummary : String) : String :=
  if jsTrimS conditionSummary = "" then "Used"
  else jsTrimS ⟨conditionSummary.data.takeWhile fun c => ¬ (c = ',' ∨ c = '-')⟩

/-- C6 counterexample.  For the condition summary
`"Mostly used, some new"` the code keeps the whole summary, while the claim
demands its first comma-delimited clause `"Mostly used"`. -/
theorem c6_counterexample :
    (fallbackDraft "vintage camera" "Cameras"
        ⟨"$50 - $100", "Mostly used, some new", [], [], []⟩ [] "" "2024"
        (JsNum.ofInt 0)).suggestedCondition = "Mostly used, some new"
    ∧ claimedSuggestedCondition "Mostly used, some new" = "Mostly used"
    ∧ (fallbackDraft "vintage camera" "Cameras"
        ⟨"$50 - $100", "Mostly used, some new", [], [], []⟩ [] "" "2024"
        (JsNum.ofInt 0)).suggestedCondition
      ≠ claimedSuggestedCondition "Mostly used, some new" := by
  refine ⟨rfl, by decide, by decide⟩

/-- A string with a non-empty right factor is non-empty. -/
theorem append_ne_empty_of_right (s t : String) (h : t.data ≠ []) : s ++ t ≠ "" := by
  intro hc
  have hdata : (s ++ t).data = ("" : String).data := by rw [hc]
  rw [String.data_append] at hdata
  rcases List.append_eq_nil.mp hdata with ⟨-, h2⟩
  exact h h2

/-- C7 (amended).  A fallback-synthesized draft is persisted unchanged by
`saveListing`, its `generatedDate` is the (never-empty) clock rendering, its
`exampleSoldListings` is the comparable list passed in (always a defined
list in this model, possibly empty), and — *when the market data carries no
title patterns* — its `suggestedTitle` is non-empty.  (With a non-empty
pattern list the title can be empty; see the counterexample.) -/
theorem c7_fallback_draft_invariant (itemDescription itemCategory : String)
    (md : MarketData) (listings : List EBayItem) (imageUrl now : String)
    (r : JsNum) (s : ListingStore)
    (hnow : now ≠ "") (hpat : md.marketTitlePatterns = []) :
    loadListings (saveListing
        (fallbackDraft itemDescription itemCategory md listings imageUrl now r) s)
      = fallbackDraft itemDescription itemCategory md listings imageUrl now r
          :: loadListings s
    ∧ (fallbackDraft itemDescription itemCategory md listings imageUrl now r).generatedDate ≠ ""
    ∧ (fallbackDraft itemDescription itemCategory md listings imageUrl now r).suggestedTitle ≠ ""
    ∧ (fallbackDraft itemDescription itemCategory md listings imageUrl now r).exampleSoldListings
      = listings := by
  refine ⟨rfl, hnow, ?_, rfl⟩
  show fallbackTitle itemDescription md r ≠ ""
  unfold fallbackTitle
  rw [hpat]
  simp only [List.length_nil, gt_iff_lt, lt_self_iff_false, if_false]
  exact append_ne_empty_of_right _ " - Rare Find!" (by decide)

/-- Witness for `c7_fallback_draft_invariant` at concrete inputs. -/
theorem c7_fallback_draft_invariant_witness :
    (fallbackDraft "vintage camera" "Cameras" ⟨"N/A", "N/A", [], [], []⟩ []
        "img" "1/1/2024, 12:00:00 PM" (JsNum.ofInt 0)).generatedDate ≠ ""
    ∧ (fallbackDraft "vintage camera" "Cameras" ⟨"N/A", "N/A", [], [], []⟩ []
        "img" "1/1/2024, 12:00:00 PM" (JsNum.ofInt 0)).suggestedTitle ≠ "" :=
  ⟨(c7_fallback_draft_invariant "vintage camera" "Cameras" ⟨"N/A", "N/A", [], [], []⟩
      [] "img" "1/1/2024, 12:00:00 PM" (JsNum.ofInt 0) (none : Option (List ListingDraft))
      (by decide) rfl).2.1,
   (c7_fallback_draft_invariant "vintage camera" "Cameras" ⟨"N/A", "N/A", [], [], []⟩
      [] "img" "1/1/2024, 12:00:00 PM" (JsNum.ofInt 0) (none : Option (List ListingDraft))
      (by decide) rfl).2.2.1⟩

/-- C7 counterexample.  The title pattern `"{ITEM}"` (length 6, so it passes
the source's `length > 5` pattern filter) combined with the identification
text `"Item:"` (non-empty, so the pipeline guard admits it) yields a
persisted fallback draft whose `suggestedTitle` is the empty string,
refuting the claimed invariant. -/
theorem c7_counterexample :
    (fallbackDraft "Item:" "Cameras" ⟨"N/A", "N/A", [], ["\x7bITEM\x7d"], []⟩ []
        "img" "1/1/2024, 12:00:00 PM" (JsNum.ofInt 0)).suggestedTitle = ""
    ∧ loadListings (saveListing
        (fallbackDraft "Item:" "Cameras" ⟨"N/A", "N/A", [], ["\x7bITEM\x7d"], []⟩ []
          "img" "1/1/2024, 12:00:00 PM" (JsNum.ofInt 0))
        (none : Option (List ListingDraft)))
      = [fallbackDraft "Item:" "Cameras" ⟨"N/A", "N/A", [], ["\x7bITEM\x7d"], []⟩ []
          "img" "1/1/2024, 12:00:00 PM" (JsNum.ofInt 0)] := by
  refine ⟨by decide, rfl⟩

/-! ## Market Aggregator (`getMarketData`, src/services/ebayService.ts,
lines 167–224)

The single `forEach` of the source updates four independent accumulators
(title list, running min, running max, condition tally); it is decomposed
here into one pass per accumulator over the same item order, which is
semantically identical because the accumulators do not interact. -/

/-- The output record of `getMarketData`. -/
structure MarketSummary where
  marketPriceRange : String
  marketConditionSummary : String
  marketKeywords : List String
deriving DecidableEq

/-- One `conditions[key] = (conditions[key] || 0) + 1` step on an insertion-
ordered tally (JS objects preserve insertion order for these non-integral
string keys). -/
def tallyInc : List (String × ℕ) → String → List (String × ℕ)
  | [], k => [(k, 1)]
  | (q, n) :: t, k => if q = k then (q, n + 1) :: t else (q, n) :: tallyInc t k

/-- Tally a word list in order. -/
def tallyOf (ws : List String) : List (String × ℕ) := ws.foldl tallyInc []

/-- Stable insertion step for `.sort((a, b) => countB - countA)`. -/
def insertByCountDesc (x : String × ℕ) : List (String × ℕ) → List (String × ℕ)
  | [] => [x]
  | y :: ys => if y.2 ≤ x.2 then x :: y :: ys else y :: insertByCountDesc x ys

/-- JS `Array.prototype.sort` with comparator `(a, b) => countB - countA`:
a stable sort, descending by count (modelled as stable insertion sort —
any stable sort agreeing with the comparator produces this list). -/
def sortByCountDesc : List (String × ℕ) → List (String × ℕ)
  | [] => []
  | x :: xs => insertByCountDesc x (sortByCountDesc xs)

/-- The successfully parsed prices, in item order
(`parseFloat(item.price.replace(/[^0-9.]/g, ''))` with NaN skipped). -/
def parsedPrices (items : List EBayItem) : List JsNum :=
  items.filterMap fun i => jsParseNum i.price

/-- `if (priceValue < minPrice) minPrice = priceValue`, with
`minPrice = Infinity` modelled as `none`. -/
def stepMin (m : Option JsNum) (q : JsNum) : Option JsNum :=
  match m with
  | none => some q
  | some mv => if JsNum.lt q mv then some q else some mv

/-- The conditions that enter the tally: `if (item.condition)` — the empty
string is falsy and is skipped. -/
def condWords (items : List EBayItem) : List String :=
  (items.map fun i => i.condition).filter fun c => c ≠ ""

/-- The condition tally of `getMarketData`. -/
def condTally (items : List EBayItem) : List (String × ℕ) := tallyOf (condWords items)

/-- `titles.flatMap(title => title.toLowerCase().split(/\s+/))`. -/
def titleWords (items : List EBayItem) : List String :=
  (items.map fun i => i.title).flatMap fun t =>
    (splitWsL (lowerS t).data).map fun w => (⟨w⟩ : String)

/-- The fixed stop-word list of the source. -/
def stopWords : List String := ["a", "an", "the", "for", "and", "with", "in", "of"]

/-- `if (word.length > 2 && !stopwords.includes(word))`. -/
def keptWords (items : List EBayItem) : List String :=
  (titleWords items).filter fun w => decide (2 < w.length) && ! stopWords.contains w

/-- The keyword tally of `getMarketData`. -/
def wordTally (items : List EBayItem) : List (String × ℕ) := tallyOf (keptWords items)

/-- The `marketPriceRange` computation (`minPrice === Infinity ||
maxPrice === 0` yields `"N/A"`; `maxPrice` starts at `0`). -/
def priceRangeOf (items : List EBayItem) : String :=
  match (parsedPrices items).foldl stepMin none with
  | none => "N/A"
  | some mnv =>
    if ((parsedPrices items).foldl JsNum.maxJ (JsNum.ofInt 0)).num = 0 then "N/A"
    else
      "$" ++ toFixed2 mnv ++ " - $" ++
        toFixed2 ((parsedPrices items).foldl JsNum.maxJ (JsNum.ofInt 0)) ++ " USD"

/-- `Object.entries(conditions).sort(...)[0][0]`, `"N/A"` when the tally is
empty (the sort of a non-empty list is non-empty, so matching on the sorted
list is the source's `Object.keys(conditions).length > 0` test). -/
def condSummaryOf (items : List EBayItem) : String :=
  match sortByCountDesc (condTally items) with
  | [] => "N/A"
  | e :: _ => e.1

/-- Top-5 keywords by count. -/
def keywordsOf (items : List EBayItem) : List String :=
  ((sortByCountDesc (wordTally items)).take 5).map fun e => e.1

/-- `getMarketData` (lines 167–224). -/
def getMarketData (items : List EBayItem) : MarketSummary :=
  if items.isEmpty then ⟨"N/A", "N/A", []⟩
  else ⟨priceRangeOf items, condSummaryOf items, keywordsOf items⟩

/-- Specification-side `"$<x.2f>"` formatter on rational values
(half-up rounding to cents, as `toFixed(2)` performs on the non-negative
amounts this pipeline formats). -/
def fmtQ2 (q : ℚ) : String := centString ⌊q * 100 + 1 / 2⌋

/-- The specification's Market Aggregator example items (§8): prices
`US $50`, `US $150`, `US $90`, conditions `Used`, `Used`, `New`; fields the
example leaves open are empty. -/
def exampleItems : List EBayItem :=
  [⟨"1", "", "US $50", none, "", "", "Used", ""⟩,
   ⟨"2", "", "US $150", none, "", "", "Used", ""⟩,
   ⟨"3", "", "US $90", none, "", "", "New", ""⟩]

theorem parseFloatQ_num_nonneg (cs : List Char) (a : JsNum)
    (h : parseFloatQ cs = some a) : 0 ≤ a.num := by
  unfold parseFloatQ at h
  split at h
  · split at h
    · exact absurd h (by simp)
    · cases h
      positivity
  · split at h
    · exact absurd h (by simp)
    · cases h
      positivity

theorem parsedPrices_den_pos (items : List EBayItem) :
    ∀ a ∈ parsedPrices items, 0 < a.den := by
  intro a ha
  rcases List.mem_filterMap.mp ha with ⟨i, _, hparse⟩
  exact parseFloatQ_den_pos _ _ hparse

theorem parsedPrices_num_nonneg (items : List EBayItem) :
    ∀ a ∈ parsedPrices items, 0 ≤ a.num := by
  intro a ha
  rcases List.mem_filterMap.mp ha with ⟨i, _, hparse⟩
  exact parseFloatQ_num_nonneg _ _ hparse

theorem JsNum.toRat_pos_iff (a : JsNum) (h : 0 < a.den) :
    0 < a.toRat ↔ 0 < a.num := by
  have hd : (0 : ℚ) < (a.den : ℚ) := by positivity
  rw [JsNum.toRat, lt_div_iff hd, zero_mul]
  exact_mod_cast Iff.rfl

theorem JsNum.toRat_nonneg (a : JsNum) (hd : 0 < a.den) (hn : 0 ≤ a.num) :
    0 ≤ a.toRat :=
  div_nonneg (by exact_mod_cast hn) (by positivity)

/-- Folding a function whose steps commute is invariant under permutation
of the list. -/
theorem foldl_perm {α : Type} {β : Type} (f : β → α → β)
    (H : ∀ b a1 a2, f (f b a1) a2 = f (f b a2) a1)
    {l1 l2 : List α} (hp : l1.Perm l2) : ∀ b, l1.foldl f b = l2.foldl f b := by
  induction hp with
  | nil => intro b; rfl
  | cons x _ ih => intro b; simpa using ih (f b x)
  | swap x y l => intro b; simp [H]
  | trans _ _ ih1 ih2 => intro b; rw [ih1 b, ih2 b]

theorem le_foldl_qmax (l : List JsNum) (a : ℚ) :
    a ≤ l.foldl (fun m x => max m x.toRat) a := by
  induction l generalizing a with
  | nil => exact le_refl a
  | cons x t ih => exact le_trans (le_max_left a x.toRat) (ih _)

theorem mem_le_foldl_qmax (l : List JsNum) (x : JsNum) :
    x ∈ l → ∀ a : ℚ, x.toRat ≤ l.foldl (fun m y => max m y.toRat) a := by
  induction l with
  | nil => intro hx; cases hx
  | cons y t ih =>
    intro hx a
    simp only [List.foldl_cons]
    rcases List.mem_cons.mp hx with h | h
    · subst h
      exact le_trans (le_max_right a x.toRat) (le_foldl_qmax t _)
    · exact ih h _

theorem foldl_qmax_le (l : List JsNum) (a c : ℚ) (ha : a ≤ c)
    (hl : ∀ x ∈ l, x.toRat ≤ c) :
    l.foldl (fun m y => max m y.toRat) a ≤ c := by
  induction l generalizing a with
  | nil => exact ha
  | cons y t ih =>
    exact ih _ (max_le ha (hl y (by simp))) fun x hx => hl x (by simp [hx])

theorem foldl_qmax_init_max (a b : ℚ) (l : List JsNum) :
    l.foldl (fun m y => max m y.toRat) (max a b) =
      max a (l.foldl (fun m y => max m y.toRat) b) := by
  induction l generalizing b with
  | nil => rfl
  | cons y t ih =>
    simp only [List.foldl_cons, max_assoc]
    exact ih (max b y.toRat)

theorem foldl_stepMin_none_eq_none_iff (ps : List JsNum) :
    ps.foldl stepMin none = none ↔ ps = [] := by
  cases ps with
  | nil => simp
  | cons p t =>
    simp only [List.foldl_cons, stepMin]
    constructor
    · intro h
      exfalso
      induction t generalizing p with
      | nil => exact Option.noConfusion h
      | cons q u ih =>
        simp only [List.foldl_cons, stepMin] at h
        split at h
        · exact ih q h
        · exact ih p h
    · intro h
      cases h

theorem foldl_stepMin_some (ps : List JsNum) (p : JsNum) :
    ps.foldl stepMin (some p) = some (ps.foldl (fun m q => JsNum.minJ q m) p) := by
  induction ps generalizing p with
  | nil => rfl
  | cons q t ih =>
    simp only [List.foldl_cons]
    have hstep : stepMin (some p) q = some (JsNum.minJ q p) := by
      rw [JsNum.minJ, apply_ite some]
      rfl
    rw [hstep, ih]

theorem foldl_minSwap_den_pos (ps : List JsNum) (p : JsNum) (hp : 0 < p.den)
    (hps : ∀ a ∈ ps, 0 < a.den) :
    0 < (ps.foldl (fun m q => JsNum.minJ q m) p).den := by
  induction ps generalizing p with
  | nil => exact hp
  | cons q t ih =>
    have hq : 0 < q.den := hps q (by simp)
    have : 0 < (JsNum.minJ q p).den := by
      rw [JsNum.minJ]
      split
      · exact hq
      · exact hp
    exact ih (JsNum.minJ q p) this fun a ha => hps a (by simp [ha])

theorem foldl_minSwap_toRat (ps : List JsNum) (p : JsNum) (hp : 0 < p.den)
    (hps : ∀ a ∈ ps, 0 < a.den) :
    (ps.foldl (fun m q => JsNum.minJ q m) p).toRat =
      ps.foldl (fun m a => min m a.toRat) p.toRat := by
  induction ps generalizing p with
  | nil => rfl
  | cons q t ih =>
    have hq : 0 < q.den := hps q (by simp)
    have hden : 0 < (JsNum.minJ q p).den := by
      rw [JsNum.minJ]
      split
      · exact hq
      · exact hp
    simp only [List.foldl_cons]
    rw [ih (JsNum.minJ q p) hden fun a ha => hps a (by simp [ha]),
      JsNum.toRat_minJ q p hq hp, min_comm]

theorem dollar_append_ne_na (r : String) : "$" ++ r ≠ "N/A" := by
  intro h
  have h2 := congrArg String.data h
  rw [String.data_append] at h2
  exact absurd (List.head_eq_of_cons_eq h2) (by decide)

/-- C3 (amended).  The Market Aggregator outputs `"N/A"` iff no item's
price string parses to a *positive* number (a price parsing to `0` also
yields `"N/A"`, because `maxPrice` starts at `0` and the guard is
`maxPrice === 0`); otherwise it outputs
`"$<min.2f> - $<max.2f> USD"` formatted from the minimum and maximum parsed
amounts.  The specification's concrete example holds. -/
theorem c3_market_aggregator :
    (∀ items : List EBayItem,
      ((getMarketData items).marketPriceRange = "N/A" ↔
        ¬ ∃ a ∈ parsedPrices items, 0 < a.num)
      ∧ ((∃ a ∈ parsedPrices items, 0 < a.num) →
          ∃ mn mx : ℚ, ((parsedPrices items).map JsNum.toRat).min? = some mn
            ∧ ((parsedPrices items).map JsNum.toRat).max? = some mx
            ∧ (getMarketData items).marketPriceRange =
                "$" ++ fmtQ2 mn ++ " - $" ++ fmtQ2 mx ++ " USD"))
    ∧ (getMarketData exampleItems).marketPriceRange = "$50.00 - $150.00 USD"
    ∧ (getMarketData exampleItems).marketConditionSummary = "Used" := by
  refine ⟨?_, by decide, by decide⟩
  intro items
  have hden := parsedPrices_den_pos items
  have hpr : (getMarketData items).marketPriceRange = priceRangeOf items := by
    unfold getMarketData
    split
    · rename_i hemp
      have : items = [] := by
        cases items with
        | nil => rfl
        | cons x xs => simp at hemp
      subst this
      rfl
    · rfl
  rw [hpr]
  rcases hps : parsedPrices items with _ | ⟨p, t⟩
  · have hna : priceRangeOf items = "N/A" := by
      unfold priceRangeOf
      rw [hps]
      rfl
    constructor
    · rw [hna]
      simp
    · rintro ⟨a, ha, -⟩
      cases ha
  · have hp : 0 < p.den := by
      refine hden p ?_
      rw [hps]
      simp
    have ht : ∀ a ∈ t, 0 < a.den := by
      intro a ha
      refine hden a ?_
      rw [hps]
      simp [ha]
    have h1 : (parsedPrices items).foldl stepMin none =
        some (t.foldl (fun m q => JsNum.minJ q m) p) := by
      rw [hps]
      simp only [List.foldl_cons]
      exact foldl_stepMin_some t p
    have hMden : 0 < ((parsedPrices items).foldl JsNum.maxJ (JsNum.ofInt 0)).den :=
      foldl_maxJ_den_pos (JsNum.ofInt 0) _ (by simp [JsNum.ofInt]) hden
    have hMval : ((parsedPrices items).foldl JsNum.maxJ (JsNum.ofInt 0)).toRat =
        (parsedPrices items).foldl (fun m a => max m a.toRat) 0 := by
      have := foldl_maxJ_toRat (JsNum.ofInt 0) (parsedPrices items)
        (by simp [JsNum.ofInt]) hden
      rwa [JsNum.toRat_ofInt, Int.cast_zero] at this
    have hsplit : (parsedPrices items).foldl (fun m a => max m a.toRat) 0 =
        max 0 (t.foldl (fun m a => max m a.toRat) p.toRat) := by
      rw [hps]
      simp only [List.foldl_cons]
      exact foldl_qmax_init_max 0 p.toRat t
    have hiffpos : ((parsedPrices items).foldl JsNum.maxJ (JsNum.ofInt 0)).num = 0 ↔
        ¬ ∃ a ∈ p :: t, 0 < a.num := by
      rw [← JsNum.toRat_eq_zero_iff _ hMden, hMval]
      constructor
      · rintro hzero ⟨a, ha, hpos⟩
        have hadp : 0 < a.den := by
          refine hden a ?_
          rw [hps]
          exact ha
        have hposr : 0 < a.toRat := (JsNum.toRat_pos_iff a hadp).mpr hpos
        have hle := mem_le_foldl_qmax (parsedPrices items) a (by rw [hps]; exact ha) 0
        rw [hzero] at hle
        exact absurd (lt_of_lt_of_le hposr hle) (by simp)
      · intro hno
        have hle : (parsedPrices items).foldl (fun m a => max m a.toRat) 0 ≤ 0 := by
          refine foldl_qmax_le _ 0 0 (le_refl 0) fun x hx => ?_
          by_contra hgt
          push_neg at hgt
          have hxdp : 0 < x.den := hden x hx
          refine hno ⟨x, ?_, (JsNum.toRat_pos_iff x hxdp).mp hgt⟩
          rw [← hps]
          exact hx
        exact le_antisymm hle (le_foldl_qmax _ 0)
    constructor
    · unfold priceRangeOf
      rw [h1]
      dsimp only
      by_cases hz : ((parsedPrices items).foldl JsNum.maxJ (JsNum.ofInt 0)).num = 0
      · rw [if_pos hz]
        simp only [true_iff]
        exact hiffpos.mp hz
      · rw [if_neg hz]
        exact iff_of_false (dollar_append_ne_na _) fun hno => hz (hiffpos.mpr hno)
    · intro hex
      have hz : ((parsedPrices items).foldl JsNum.maxJ (JsNum.ofInt 0)).num ≠ 0 :=
        fun h => (hiffpos.mp h) hex
      have hmnden : 0 < (t.foldl (fun m q => JsNum.minJ q m) p).den :=
        foldl_minSwap_den_pos t p hp ht
      have hmnval : (t.foldl (fun m q => JsNum.minJ q m) p).toRat =
          t.foldl (fun m a => min m a.toRat) p.toRat :=
        foldl_minSwap_toRat t p hp ht
      have hminq : ((p :: t).map JsNum.toRat).min? =
          some (t.foldl (fun m a => min m a.toRat) p.toRat) := by
        simp only [List.map_cons, List.min?, List.foldl_map]
      have hmxq : ((p :: t).map JsNum.toRat).max? =
          some (t.foldl (fun m a => max m a.toRat) p.toRat) := by
        simp only [List.map_cons, List.max?, List.foldl_map]
      have hpos : 0 < t.foldl (fun m a => max m a.toRat) p.toRat := by
        rcases hex with ⟨a, ha, hposn⟩
        have hadp : 0 < a.den := by
          refine hden a ?_
          rw [hps]
          exact ha
        have hposr : 0 < a.toRat := (JsNum.toRat_pos_iff a hadp).mpr hposn
        rcases List.mem_cons.mp ha with h | h
        · subst h
          exact lt_of_lt_of_le hposr (le_foldl_qmax t _)
        · exact lt_of_lt_of_le hposr (mem_le_foldl_qmax t a h p.toRat)
      have hMeq : ((parsedPrices items).foldl JsNum.maxJ (JsNum.ofInt 0)).toRat =
          t.foldl (fun m a => max m a.toRat) p.toRat := by
        rw [hMval, hsplit, max_eq_right (le_of_lt hpos)]
      refine ⟨(t.foldl (fun m q => JsNum.minJ q m) p).toRat,
        t.foldl (fun m a => max m a.toRat) p.toRat,
        by rw [hminq, hmnval], hmxq, ?_⟩
      unfold priceRangeOf
      rw [h1]
      dsimp only
      rw [if_neg hz]
      unfold toFixed2 fmtQ2
      rw [cent_eq_floor _ hmnden, cent_eq_floor _ hMden, hMeq]

/-- C3 counterexample.  The item price `"US $0"` parses to the number `0`,
yet the aggregator outputs `"N/A"` (and not a formatted range), refuting the
claimed "N/A iff no price parses" equivalence. -/
theorem c3_counterexample :
    jsParseNum "US $0" = some ⟨0, 1⟩
    ∧ (getMarketData [⟨"1", "", "US $0", none, "", "", "Used", ""⟩]).marketPriceRange
      = "N/A"
    ∧ (getMarketData [⟨"1", "", "US $0", none, "", "", "Used", ""⟩]).marketPriceRange
      ≠ "$" ++ toFixed2 ⟨0, 1⟩ ++ " - $" ++ toFixed2 ⟨0, 1⟩ ++ " USD" := by
  refine ⟨by decide, by decide, by decide⟩

/-- Witness for `c3_market_aggregator` at the specification's example items
(whose prices parse to the positive numbers 50, 150, 90). -/
theorem c3_market_aggregator_witness :
    ∃ mn mx : ℚ, ((parsedPrices exampleItems).map JsNum.toRat).min? = some mn
      ∧ ((parsedPrices exampleItems).map JsNum.toRat).max? = some mx
      ∧ (getMarketData exampleItems).marketPriceRange =
          "$" ++ fmtQ2 mn ++ " - $" ++ fmtQ2 mx ++ " USD" :=
  (c3_market_aggregator.1 exampleItems).2 ⟨⟨50, 1⟩, by decide⟩

/-! ## Permutation lemmas for the Market Aggregator (claim C4) -/

theorem keys_tallyInc_eq (t : List (String × ℕ)) (k : String) :
    (tallyInc t k).map Prod.fst =
      if k ∈ t.map Prod.fst then t.map Prod.fst else t.map Prod.fst ++ [k] := by
  induction t with
  | nil => simp [tallyInc]
  | cons e t' ih =>
    obtain ⟨q, n⟩ := e
    by_cases hq : q = k
    · subst hq
      simp [tallyInc]
    · simp only [tallyInc, if_neg hq, List.map_cons, List.mem_cons]
      by_cases hk : k ∈ t'.map Prod.fst
      · rw [ih, if_pos hk, if_pos (Or.inr hk)]
      · rw [ih, if_neg hk, if_neg (by rintro (h | h) <;> [exact hq h.symm; exact hk h])]
        simp

theorem nodup_keys_tallyInc (t : List (String × ℕ)) (k : String)
    (h : (t.map Prod.fst).Nodup) : ((tallyInc t k).map Prod.fst).Nodup := by
  rw [keys_tallyInc_eq]
  by_cases hk : k ∈ t.map Prod.fst
  · rwa [if_pos hk]
  · rw [if_neg hk]
    rw [List.nodup_append]
    exact ⟨h, List.nodup_singleton k, by simpa using fun hc => hk hc⟩

theorem lookup_cons_pair (q : String) (n : ℕ) (t : List (String × ℕ)) (x : String) :
    ((q, n) :: t).lookup x = if x = q then some n else t.lookup x := by
  by_cases h : x = q
  · subst h
    simp [List.lookup]
  · have hb : (x == q) = false := by simpa using h
    simp [List.lookup, hb, h]

theorem lookup_tallyInc (t : List (String × ℕ)) (k x : String) :
    (tallyInc t k).lookup x =
      if x = k then some (((t.lookup x).getD 0) + 1) else t.lookup x := by
  induction t with
  | nil =>
    rw [show tallyInc [] k = [(k, 1)] from rfl, lookup_cons_pair]
    by_cases hx : x = k
    · rw [if_pos hx, if_pos hx]
      rfl
    · rw [if_neg hx, if_neg hx]
  | cons e t' ih =>
    obtain ⟨q, n⟩ := e
    by_cases hq : q = k
    · subst hq
      rw [show tallyInc ((q, n) :: t') q = (q, n + 1) :: t' by simp [tallyInc]]
      simp only [lookup_cons_pair]
      by_cases hx : x = q <;> simp [hx]
    · rw [show tallyInc ((q, n) :: t') k = (q, n) :: tallyInc t' k by simp [tallyInc, hq]]
      simp only [lookup_cons_pair, ih]
      by_cases hx : x = q
      · have hxk : ¬ x = k := fun h => hq (by rw [← hx, h])
        simp [hx, hxk, hq]
      · simp [hx]

theorem mem_keys_foldl_tallyInc (ws : List String) :
    ∀ (t : List (String × ℕ)) (x : String),
      x ∈ (ws.foldl tallyInc t).map Prod.fst ↔ x ∈ t.map Prod.fst ∨ x ∈ ws := by
  induction ws with
  | nil => intro t x; simp
  | cons w ws' ih =>
    intro t x
    simp only [List.foldl_cons]
    rw [ih (tallyInc t w) x, keys_tallyInc_eq]
    by_cases hw : w ∈ t.map Prod.fst
    · rw [if_pos hw]
      constructor
      · rintro (h | h)
        · exact Or.inl h
        · exact Or.inr (List.mem_cons_of_mem w h)
      · rintro (h | h)
        · exact Or.inl h
        · rcases List.mem_cons.mp h with h2 | h2
          · exact Or.inl (h2 ▸ hw)
          · exact Or.inr h2
    · rw [if_neg hw]
      simp only [List.mem_append, List.mem_singleton, List.mem_cons]
      tauto

theorem nodup_keys_foldl_tallyInc (ws : List String) :
    ∀ t : List (String × ℕ), (t.map Prod.fst).Nodup →
      ((ws.foldl tallyInc t).map Prod.fst).Nodup := by
  induction ws with
  | nil => intro t h; exact h
  | cons w ws' ih =>
    intro t h
    exact ih (tallyInc t w) (nodup_keys_tallyInc t w h)

theorem lookup_foldl_tallyInc_getD (ws : List String) :
    ∀ (t : List (String × ℕ)) (x : String),
      ((ws.foldl tallyInc t).lookup x).getD 0 = (t.lookup x).getD 0 + ws.count x := by
  induction ws with
  | nil => intro t x; simp [List.count]
  | cons w ws' ih =>
    intro t x
    simp only [List.foldl_cons]
    rw [ih (tallyInc t w) x, lookup_tallyInc]
    by_cases hx : x = w
    · subst hx
      rw [if_pos rfl, List.count_cons]
      simp only [Option.getD_some, beq_self_eq_true, if_true]
      omega
    · rw [if_neg hx, List.count_cons, if_neg (by simpa using fun h : w = x => hx h.symm)]
      omega

theorem assoc_eq_map_keys (t : List (String × ℕ)) (h : (t.map Prod.fst).Nodup) :
    t = (t.map Prod.fst).map fun k => (k, (t.lookup k).getD 0) := by
  induction t with
  | nil => rfl
  | cons e t' ih =>
    obtain ⟨q, n⟩ := e
    simp only [List.map_cons, List.nodup_cons] at h
    obtain ⟨hq, hnd⟩ := h
    simp only [List.map_cons]
    congr 1
    · simp [List.lookup]
    · have htail : ∀ k ∈ t'.map Prod.fst,
          (k, ((((q, n) :: t').lookup k).getD 0)) = (k, ((t'.lookup k).getD 0)) := by
        intro k hk
        have : ¬ (k == q) = true := by
          simp only [beq_iff_eq]
          intro hc
          exact hq (hc ▸ hk)
        simp [List.lookup, this]
      rw [List.map_congr_left htail]
      exact ih hnd

/-- The tally of a word list is determined, up to permutation, by the word
list up to permutation. -/
theorem tallyOf_perm {ws1 ws2 : List String} (hp : ws1.Perm ws2) :
    (tallyOf ws1).Perm (tallyOf ws2) := by
  have hnd1 : ((tallyOf ws1).map Prod.fst).Nodup :=
    nodup_keys_foldl_tallyInc ws1 [] (by simp)
  have hnd2 : ((tallyOf ws2).map Prod.fst).Nodup :=
    nodup_keys_foldl_tallyInc ws2 [] (by simp)
  have hmem : ∀ x, x ∈ (tallyOf ws1).map Prod.fst ↔ x ∈ (tallyOf ws2).map Prod.fst := by
    intro x
    unfold tallyOf
    rw [mem_keys_foldl_tallyInc ws1 [] x, mem_keys_foldl_tallyInc ws2 [] x]
    simp only [List.map_nil, List.not_mem_nil, false_or]
    exact hp.mem_iff
  have hkeys : ((tallyOf ws1).map Prod.fst).Perm ((tallyOf ws2).map Prod.fst) :=
    (List.perm_ext_iff_of_nodup hnd1 hnd2).mpr hmem
  have hcnt1 : ∀ x, ((tallyOf ws1).lookup x).getD 0 = ws1.count x := by
    intro x
    unfold tallyOf
    rw [lookup_foldl_tallyInc_getD ws1 [] x]
    simp [List.lookup]
  have hcnt2 : ∀ x, ((tallyOf ws2).lookup x).getD 0 = ws2.count x := by
    intro x
    unfold tallyOf
    rw [lookup_foldl_tallyInc_getD ws2 [] x]
    simp [List.lookup]
  have he1 : tallyOf ws1 = ((tallyOf ws1).map Prod.fst).map fun k => (k, ws1.count k) := by
    nth_rewrite 1 [assoc_eq_map_keys (tallyOf ws1) hnd1]
    exact List.map_congr_left fun k _ => by rw [hcnt1 k]
  have he2 : tallyOf ws2 = ((tallyOf ws2).map Prod.fst).map fun k => (k, ws1.count k) := by
    nth_rewrite 1 [assoc_eq_map_keys (tallyOf ws2) hnd2]
    refine List.map_congr_left fun k _ => ?_
    rw [hcnt2 k, hp.count_eq k]
  rw [he1, he2]
  exact hkeys.map _

theorem perm_insertByCountDesc (x : String × ℕ) (l : List (String × ℕ)) :
    (insertByCountDesc x l).Perm (x :: l) := by
  induction l with
  | nil => exact List.Perm.refl _
  | cons y ys ih =>
    rw [insertByCountDesc]
    split
    · exact List.Perm.refl _
    · exact (ih.cons y).trans (List.Perm.swap x y ys)

theorem sortByCountDesc_perm (l : List (String × ℕ)) :
    (sortByCountDesc l).Perm l := by
  induction l with
  | nil => exact List.Perm.refl _
  | cons x xs ih =>
    rw [sortByCountDesc]
    exact (perm_insertByCountDesc x (sortByCountDesc xs)).trans (ih.cons x)

theorem pairwise_insertByCountDesc (x : String × ℕ) (l : List (String × ℕ))
    (h : l.Pairwise fun a b => b.2 ≤ a.2) :
    (insertByCountDesc x l).Pairwise fun a b => b.2 ≤ a.2 := by
  induction l with
  | nil => simp [insertByCountDesc]
  | cons y ys ih =>
    rw [insertByCountDesc]
    rcases List.pairwise_cons.mp h with ⟨hy, hys⟩
    split
    · rename_i hle
      refine List.pairwise_cons.mpr ⟨?_, h⟩
      intro b hb
      rcases List.mem_cons.mp hb with h2 | h2
      · exact h2 ▸ hle
      · exact le_trans (hy b h2) hle
    · rename_i hgt
      refine List.pairwise_cons.mpr ⟨?_, ih hys⟩
      intro b hb
      have hb2 := (perm_insertByCountDesc x ys).mem_iff.mp hb
      rcases List.mem_cons.mp hb2 with h2 | h2
      · subst h2
        omega
      · exact hy b h2

theorem sortByCountDesc_pairwise (l : List (String × ℕ)) :
    (sortByCountDesc l).Pairwise fun a b => b.2 ≤ a.2 := by
  induction l with
  | nil => simp [sortByCountDesc]
  | cons x xs ih => exact pairwise_insertByCountDesc x (sortByCountDesc xs) ih

/-- Two permuted lists, both sorted by a relation that is antisymmetric on
the elements of the first, are equal. -/
theorem sorted_perm_antisymm_eq {α : Type} (R : α → α → Prop) :
    ∀ (l1 l2 : List α), l1.Perm l2 → l1.Pairwise R → l2.Pairwise R →
      (∀ a ∈ l1, ∀ b ∈ l1, R a b → R b a → a = b) → l1 = l2 := by
  intro l1
  induction l1 with
  | nil =>
    intro l2 hp _ _ _
    exact (hp.nil_eq).symm ▸ rfl
  | cons x xs ih =>
    intro l2 hp h1 h2 hanti
    cases l2 with
    | nil => exact absurd hp.symm.nil_eq (by simp)
    | cons y ys =>
      have hxy : x = y := by
        by_cases hxy : x = y
        · exact hxy
        · have hyin : y ∈ x :: xs := hp.symm.mem_iff.mp (by simp)
          have hxin : x ∈ y :: ys := hp.mem_iff.mp (by simp)
          have hy_xs : y ∈ xs := by
            rcases List.mem_cons.mp hyin with h | h
            · exact absurd h.symm hxy
            · exact h
          have hx_ys : x ∈ ys := by
            rcases List.mem_cons.mp hxin with h | h
            · exact absurd h hxy
            · exact h
          have hRxy : R x y := (List.pairwise_cons.mp h1).1 y hy_xs
          have hRyx : R y x := (List.pairwise_cons.mp h2).1 x hx_ys
          exact hanti x (by simp) y (by simp [hy_xs]) hRxy hRyx
      subst hxy
      have htails : xs.Perm ys := (List.perm_cons x).mp hp
      have := ih ys htails (List.pairwise_cons.mp h1).2 (List.pairwise_cons.mp h2).2
        fun a ha b hb hab hba => hanti a (by simp [ha]) b (by simp [hb]) hab hba
      rw [this]

/-- The value-level min fold over the whole price list. -/
def qMinStep (m : Option ℚ) (a : JsNum) : Option ℚ :=
  match m with
  | none => some a.toRat
  | some v => some (min v a.toRat)

theorem qMinStep_comm (m : Option ℚ) (a b : JsNum) :
    qMinStep (qMinStep m a) b = qMinStep (qMinStep m b) a := by
  cases m with
  | none =>
    show some (min a.toRat b.toRat) = some (min b.toRat a.toRat)
    rw [min_comm]
  | some v =>
    show some (min (min v a.toRat) b.toRat) = some (min (min v b.toRat) a.toRat)
    rw [min_right_comm]

theorem foldl_qMinStep_some (t : List JsNum) :
    ∀ x : ℚ, t.foldl qMinStep (some x) =
      some (t.foldl (fun v a => min v a.toRat) x) := by
  induction t with
  | nil => intro x; rfl
  | cons a u ih => intro x; simpa [qMinStep] using ih (min x a.toRat)

theorem map_toRat_foldl_stepMin (ps : List JsNum) (hps : ∀ a ∈ ps, 0 < a.den) :
    Option.map JsNum.toRat (ps.foldl stepMin none) = ps.foldl qMinStep none := by
  cases ps with
  | nil => rfl
  | cons p t =>
    have hp : 0 < p.den := hps p (by simp)
    have ht : ∀ a ∈ t, 0 < a.den := fun a ha => hps a (by simp [ha])
    simp only [List.foldl_cons]
    rw [show stepMin none p = some p from rfl, show qMinStep none p = some p.toRat from rfl,
      foldl_stepMin_some, foldl_qMinStep_some]
    show some ((t.foldl (fun m q => JsNum.minJ q m) p).toRat) =
      some (t.foldl (fun v a => min v a.toRat) p.toRat)
    rw [foldl_minSwap_toRat t p hp ht]

/-- The head of the sorted tally is a maximal-count entry. -/
theorem sort_head_max (l : List (String × ℕ)) (e : String × ℕ) (r : List (String × ℕ))
    (h : sortByCountDesc l = e :: r) : e ∈ l ∧ ∀ g ∈ l, g.2 ≤ e.2 := by
  have hperm := sortByCountDesc_perm l
  rw [h] at hperm
  have hpw := sortByCountDesc_pairwise l
  rw [h] at hpw
  refine ⟨hperm.mem_iff.mp (by simp), ?_⟩
  intro g hg
  rcases List.mem_cons.mp (hperm.symm.mem_iff.mp hg) with h2 | h2
  · exact h2 ▸ le_refl _
  · exact (List.pairwise_cons.mp hpw).1 g h2

/-- There is a unique maximal-count entry in the condition tally (the
documented tie-break is not exercised). -/
def CondMaxUnique (items : List EBayItem) : Prop :=
  ∀ e ∈ condTally items, ∀ f ∈ condTally items,
    (∀ g ∈ condTally items, g.2 ≤ e.2) → (∀ g ∈ condTally items, g.2 ≤ f.2) → e = f

/-- Distinct words have distinct counts in the keyword tally (no equal-count
tie anywhere, so the documented tie-break is not exercised). -/
def WordCountsInj (items : List EBayItem) : Prop :=
  ∀ e ∈ wordTally items, ∀ f ∈ wordTally items, e.2 = f.2 → e = f

theorem condWords_perm {l1 l2 : List EBayItem} (hp : l1.Perm l2) :
    (condWords l1).Perm (condWords l2) := by
  unfold condWords
  exact (hp.map fun i => i.condition).filter _

theorem keptWords_perm {l1 l2 : List EBayItem} (hp : l1.Perm l2) :
    (keptWords l1).Perm (keptWords l2) := by
  refine List.Perm.filter _ ?_
  unfold titleWords
  rw [List.flatMap_def, List.flatMap_def]
  exact ((hp.map fun i => i.title).map _).flatten

instance (items : List EBayItem) : Decidable (CondMaxUnique items) := by
  unfold CondMaxUnique
  infer_instance

instance (items : List EBayItem) : Decidable (WordCountsInj items) := by
  unfold WordCountsInj
  infer_instance

theorem foldl_stepMin_some_den_pos (ps : List JsNum) (hps : ∀ a ∈ ps, 0 < a.den)
    (m : JsNum) (h : ps.foldl stepMin none = some m) : 0 < m.den := by
  cases ps with
  | nil => exact absurd h (by simp)
  | cons p t =>
    have hp : 0 < p.den := hps p (by simp)
    have ht : ∀ a ∈ t, 0 < a.den := fun a ha => hps a (by simp [ha])
    simp only [List.foldl_cons] at h
    rw [show stepMin none p = some p from rfl, foldl_stepMin_some] at h
    cases h
    exact foldl_minSwap_den_pos t p hp ht

/-- C4.  On permuted inputs `getMarketData` produces the same price range
unconditionally; the same condition summary whenever the maximal-count
condition entry is unique; and the same keyword list whenever all tallied
words have pairwise distinct counts — i.e. identical output except where the
input-order-dependent first-seen tie-break on equal counts decides. -/
theorem c4_market_aggregator_order (l1 l2 : List EBayItem) (hp : l1.Perm l2) :
    (getMarketData l1).marketPriceRange = (getMarketData l2).marketPriceRange
    ∧ (CondMaxUnique l1 →
        (getMarketData l1).marketConditionSummary
          = (getMarketData l2).marketConditionSummary)
    ∧ (WordCountsInj l1 →
        (getMarketData l1).marketKeywords = (getMarketData l2).marketKeywords) := by
  by_cases hemp : l1 = []
  · subst hemp
    rw [← hp.nil_eq]
    exact ⟨rfl, fun _ => rfl, fun _ => rfl⟩
  · have hemp2 : l2 ≠ [] := by
      intro h
      subst h
      exact hemp hp.symm.nil_eq.symm
    have hE1 : l1.isEmpty = false := by
      cases l1 with
      | nil => exact absurd rfl hemp
      | cons x xs => rfl
    have hE2 : l2.isEmpty = false := by
      cases l2 with
      | nil => exact absurd rfl hemp2
      | cons x xs => rfl
    have hg1 : getMarketData l1 = ⟨priceRangeOf l1, condSummaryOf l1, keywordsOf l1⟩ := by
      simp [getMarketData, hE1]
    have hg2 : getMarketData l2 = ⟨priceRangeOf l2, condSummaryOf l2, keywordsOf l2⟩ := by
      simp [getMarketData, hE2]
    rw [hg1, hg2]
    have hpp : (parsedPrices l1).Perm (parsedPrices l2) := hp.filterMap _
    have hd1 := parsedPrices_den_pos l1
    have hd2 := parsedPrices_den_pos l2
    refine ⟨?_, ?_, ?_⟩
    · -- price range
      have hminv : Option.map JsNum.toRat ((parsedPrices l1).foldl stepMin none) =
          Option.map JsNum.toRat ((parsedPrices l2).foldl stepMin none) := by
        rw [map_toRat_foldl_stepMin _ hd1, map_toRat_foldl_stepMin _ hd2]
        exact foldl_perm qMinStep qMinStep_comm hpp none
      have hmaxv : ((parsedPrices l1).foldl JsNum.maxJ (JsNum.ofInt 0)).toRat =
          ((parsedPrices l2).foldl JsNum.maxJ (JsNum.ofInt 0)).toRat := by
        rw [foldl_maxJ_toRat _ _ (by simp [JsNum.ofInt]) hd1,
          foldl_maxJ_toRat _ _ (by simp [JsNum.ofInt]) hd2]
        refine foldl_perm _ (fun b a1 a2 => ?_) hpp _
        rw [max_assoc, max_comm a1.toRat a2.toRat, ← max_assoc]
      have hM1den : 0 < ((parsedPrices l1).foldl JsNum.maxJ (JsNum.ofInt 0)).den :=
        foldl_maxJ_den_pos (JsNum.ofInt 0) _ (by simp [JsNum.ofInt]) hd1
      have hM2den : 0 < ((parsedPrices l2).foldl JsNum.maxJ (JsNum.ofInt 0)).den :=
        foldl_maxJ_den_pos (JsNum.ofInt 0) _ (by simp [JsNum.ofInt]) hd2
      have hz12 : ((parsedPrices l1).foldl JsNum.maxJ (JsNum.ofInt 0)).num = 0 ↔
          ((parsedPrices l2).foldl JsNum.maxJ (JsNum.ofInt 0)).num = 0 := by
        rw [← JsNum.toRat_eq_zero_iff _ hM1den, ← JsNum.toRat_eq_zero_iff _ hM2den, hmaxv]
      by_cases h0 : parsedPrices l1 = []
      · have h02 : parsedPrices l2 = [] := by
          rw [h0] at hpp
          exact hpp.nil_eq.symm
        unfold priceRangeOf
        rw [h0, h02]
      · have h02 : parsedPrices l2 ≠ [] := by
          intro h
          rw [h] at hpp
          exact h0 hpp.symm.nil_eq.symm
        obtain ⟨m1, hm1⟩ : ∃ m1, (parsedPrices l1).foldl stepMin none = some m1 := by
          rcases h : (parsedPrices l1).foldl stepMin none with _ | m1
          · exact absurd ((foldl_stepMin_none_eq_none_iff _).mp h) h0
          · exact ⟨m1, rfl⟩
        obtain ⟨m2, hm2⟩ : ∃ m2, (parsedPrices l2).foldl stepMin none = some m2 := by
          rcases h : (parsedPrices l2).foldl stepMin none with _ | m2
          · exact absurd ((foldl_stepMin_none_eq_none_iff _).mp h) h02
          · exact ⟨m2, rfl⟩
        have hval : m1.toRat = m2.toRat := by
          rw [hm1, hm2] at hminv
          exact Option.some.inj hminv
        have hm1den : 0 < m1.den := foldl_stepMin_some_den_pos _ hd1 m1 hm1
        have hm2den : 0 < m2.den := foldl_stepMin_some_den_pos _ hd2 m2 hm2
        unfold priceRangeOf
        rw [hm1, hm2]
        dsimp only
        by_cases hz : ((parsedPrices l1).foldl JsNum.maxJ (JsNum.ofInt 0)).num = 0
        · rw [if_pos hz, if_pos (hz12.mp hz)]
        · rw [if_neg hz, if_neg fun h => hz (hz12.mpr h),
            toFixed2_congr m1 m2 hm1den hm2den hval,
            toFixed2_congr _ _ hM1den hM2den hmaxv]
    · -- condition summary
      intro hu
      have ht : (condTally l1).Perm (condTally l2) := tallyOf_perm (condWords_perm hp)
      unfold condSummaryOf
      rcases hs1 : sortByCountDesc (condTally l1) with _ | ⟨e1, r1⟩
      · have h1 : condTally l1 = [] := by
          have hperm := sortByCountDesc_perm (condTally l1)
          rw [hs1] at hperm
          exact hperm.nil_eq.symm
        have h2 : condTally l2 = [] := by
          rw [h1] at ht
          exact ht.nil_eq.symm
        rw [h2]
        rfl
      · rcases hs2 : sortByCountDesc (condTally l2) with _ | ⟨e2, r2⟩
        · have h2 : condTally l2 = [] := by
            have hperm := sortByCountDesc_perm (condTally l2)
            rw [hs2] at hperm
            exact hperm.nil_eq.symm
          rw [h2] at ht
          have h1 : condTally l1 = [] := ht.symm.nil_eq.symm
          rw [h1] at hs1
          exact absurd hs1 (by simp [sortByCountDesc])
        · obtain ⟨he1mem, he1max⟩ := sort_head_max _ _ _ hs1
          obtain ⟨he2mem, he2max⟩ := sort_head_max _ _ _ hs2
          have he2mem1 : e2 ∈ condTally l1 := ht.symm.mem_iff.mp he2mem
          have he2max1 : ∀ g ∈ condTally l1, g.2 ≤ e2.2 := fun g hg =>
            he2max g (ht.mem_iff.mp hg)
          have he12 : e1 = e2 := hu e1 he1mem e2 he2mem1 he1max he2max1
          rw [he12]
    · -- keywords
      intro hi
      have ht : (wordTally l1).Perm (wordTally l2) := tallyOf_perm (keptWords_perm hp)
      have hs : sortByCountDesc (wordTally l1) = sortByCountDesc (wordTally l2) := by
        refine sorted_perm_antisymm_eq (fun a b => b.2 ≤ a.2) _ _
          ((sortByCountDesc_perm _).trans (ht.trans (sortByCountDesc_perm _).symm))
          (sortByCountDesc_pairwise _) (sortByCountDesc_pairwise _) ?_
        intro a ha b hb hab hba
        exact hi a ((sortByCountDesc_perm _).mem_iff.mp ha)
          b ((sortByCountDesc_perm _).mem_iff.mp hb) (le_antisymm hba hab)
      unfold keywordsOf
      rw [hs]

/-- Witness for `c4_market_aggregator_order`: the specification's example
items against their reversal; both hypotheses hold there (unique dominant
condition "Used", empty keyword tally). -/
theorem c4_market_aggregator_order_witness :
    (getMarketData exampleItems).marketPriceRange
      = (getMarketData exampleItems.reverse).marketPriceRange
    ∧ (getMarketData exampleItems).marketConditionSummary
      = (getMarketData exampleItems.reverse).marketConditionSummary
    ∧ (getMarketData exampleItems).marketKeywords
      = (getMarketData exampleItems.reverse).marketKeywords := by
  have h := c4_market_aggregator_order exampleItems exampleItems.reverse
    (List.reverse_perm exampleItems).symm
  exact ⟨h.1, h.2.1 (by decide), h.2.2 (by decide)⟩

/-! ## Pipeline Orchestrator re-entrancy (claim C1)

`generateListing` (ListingGenerator.tsx, second revision, lines 234–331) and
the `useEffect` that triggers it (lines 333–338).  Each trigger starts an
async run that resets the component state (line 239, `setGeneratedDraft(null)`
among others) and, when its awaited stages resolve, *unconditionally*
executes `setGeneratedDraft(draft)`, `onListingGenerated(draft)` and
`databaseService.saveListing(draft)` (lines 311–321): the closure captures
no run token or generation counter and compares nothing before writing.
A run's completion is therefore the unconditional state transformation
`completeRun` below, regardless of whether a newer run has started in
between.  Runs are single-threaded and interleave only at `await` points,
so an execution is a sequence of `startRun`/`completeRun` events; the race
of the claim is the schedule: trigger A, trigger B (before A resolves),
B's stages resolve, then A's stages resolve. -/

/-- The orchestrator-visible state: the displayed draft
(`generatedDraft`), the drafts emitted through `onListingGenerated` in
order, and the history store. -/
structure UIState where
  generatedDraft : Option ListingDraft
  emitted : List ListingDraft
  store : ListingStore

/-- The synchronous prefix of `generateListing` (the state resets at lines
235–245; only the draft reset is relevant to the claim). -/
def startRun (s : UIState) : UIState := { s with generatedDraft := none }

/-- The completion segment of `generateListing` (lines 311–321), executed
unconditionally when a run's awaited stages resolve. -/
def completeRun (draft : ListingDraft) (s : UIState) : UIState :=
  { generatedDraft := some draft
    emitted := s.emitted ++ [draft]
    store := saveListing draft s.store }

/-- The claimed race: A triggered, B triggered before A's stages resolve,
B completes with draft `dB`, then A's pending completion resolves with
draft `dA`. -/
def raceSchedule (dA dB : ListingDraft) (s0 : UIState) : UIState :=
  completeRun dA (completeRun dB (startRun (startRun s0)))

/-- C1, evaluated at the failing schedule.  When the superseded run A
completes after B, the code emits *two* drafts (B's then A's), writes
*both* to history, and leaves the *superseded* run A's draft displayed —
where the claim demands exactly one emitted/persisted draft corresponding
to B and no writes from A. -/
theorem c1_superseded_run_overwrites (dA dB : ListingDraft) (s0 : UIState) :
    (raceSchedule dA dB s0).emitted = s0.emitted ++ [dB, dA]
    ∧ loadListings (raceSchedule dA dB s0).store = dA :: dB :: loadListings s0.store
    ∧ (raceSchedule dA dB s0).generatedDraft = some dA := by
  refine ⟨?_, rfl, rfl⟩
  simp [raceSchedule, completeRun, startRun]

end SLG
